import Mathlib

/-!
Verification of the storecrypt transform-and-variant-resolution layer.

Paths are modelled as lists of characters (Go strings are byte slices; the
code only concatenates them and tests/strips suffixes).  The storage backend
is modelled as a map from physical path to stored blob; byte-stream
transforms (gzip/zstd compression, AES encryption) are modelled as opaque
constructors on blobs, matching their treatment in the source as opaque
capability objects.

Source files embedded here: pkg/storage/dynstor.go (VariadicStorage) and
pkg/storage/modifier.go (TransformingStorage).
-/

abbrev Str := List Char

/-- Embedding of filepath.ToSlash: replace the OS path separator with a
forward slash (the separator is a backslash on the only platform where the
function is not the identity). -/
def toSlash (s : Str) : Str := s.map (fun c => if c = '\\' then '/' else c)

/-- Embedding of strings.TrimSuffix: drop the suffix when present,
otherwise return the string unchanged. -/
def trimSuffix (s suffix : Str) : Str :=
  if suffix <:+ s then s.take (s.length - suffix.length) else s

/-- The extension tag ".gz". -/
def gzE : Str := ['.', 'g', 'z']

/-- The extension tag ".zst". -/
def zstE : Str := ['.', 'z', 's', 't']

/-- The extension tag ".aes". -/
def aesE : Str := ['.', 'a', 'e', 's']

/-- The combined extension tag ".gz.aes". -/
def gzAesE : Str := gzE ++ aesE

/-- The combined extension tag ".zst.aes". -/
def zstAesE : Str := zstE ++ aesE

/-- Embedding of the Algorithms struct of dynstor.go: which capability
objects are present (the pointers are only ever tested against nil, so each
is a Bool here). -/
structure Algorithms where
  gzip : Bool
  zstd : Bool
  aes : Bool
deriving DecidableEq

/-- Embedding of the VariadicStorage struct (the backend is passed to each
operation explicitly in this embedding). -/
structure VariadicStorage where
  alg : Algorithms
  writeExt : Str

/-- Embedding of VariadicStorage.supportedExts (dynstor.go): the priority
list of known extensions, combination variants first, plain always last. -/
def supportedExts (alg : Algorithms) : List Str :=
  (if alg.gzip && alg.aes then [gzAesE] else []) ++
  (if alg.zstd && alg.aes then [zstAesE] else []) ++
  (if alg.gzip then [gzE] else []) ++
  (if alg.zstd then [zstE] else []) ++
  (if alg.aes then [aesE] else []) ++
  [[]]

/-- Embedding of VariadicStorage.isSupportedWriteExt (dynstor.go): the
switch over the requested write extension. -/
def isSupportedWriteExt (alg : Algorithms) (ext : Str) : Bool :=
  if ext = [] then true
  else if ext = gzE then alg.gzip
  else if ext = zstE then alg.zstd
  else if ext = gzAesE then alg.gzip && alg.aes
  else if ext = zstAesE then alg.zstd && alg.aes
  else if ext = aesE then alg.aes
  else false

/-- Embedding of NewVariadicStorage (dynstor.go): construction fails (none)
exactly when the write extension is not supported by the algorithms. -/
def NewVariadicStorage (alg : Algorithms) (writeExt : Str) : Option VariadicStorage :=
  if isSupportedWriteExt alg writeExt then some ⟨alg, writeExt⟩ else none

/-- The compressor families that can be configured. -/
inductive Comp
  | gz
  | zst
deriving DecidableEq

/-- Stored byte streams, with the opaque transforms as constructors:
compression and encryption are external capability objects, so only their
shape matters here. -/
inductive Blob
  | raw (bytes : List Nat)
  | comp (c : Comp) (b : Blob)
  | enc (b : Blob)
deriving DecidableEq

/-- Embedding of the transforms struct of dynstor.go. -/
structure Transforms where
  compressor : Option Comp
  decompressor : Option Comp
  crypter : Bool

/-- Embedding of VariadicStorage.transformsFromName (dynstor.go): AES is
handled as the outermost suffix if configured, then the compression
suffix. -/
def transformsFromName (alg : Algorithms) (name : Str) : Transforms :=
  let cr : Bool := alg.aes && decide (aesE <:+ name)
  let name1 : Str := if alg.aes ∧ aesE <:+ name then trimSuffix name aesE else name
  if alg.gzip ∧ gzE <:+ name1 then ⟨some Comp.gz, some Comp.gz, cr⟩
  else if alg.zstd ∧ zstE <:+ name1 then ⟨some Comp.zst, some Comp.zst, cr⟩
  else ⟨none, none, cr⟩

/-- Errors of the storage layer: the fs.ErrNotExist sentinel (also standing
for the backend contract's NotFound), and a transform/stream mismatch
surfaced while decoding. -/
inductive StorErr
  | notExist
  | decodeMismatch
deriving DecidableEq

instance {ε α : Type} [DecidableEq ε] [DecidableEq α] : DecidableEq (Except ε α) := fun a b =>
  match a, b with
  | Except.ok x, Except.ok y =>
    if h : x = y then Decidable.isTrue (h ▸ rfl)
    else Decidable.isFalse (fun hc => h (Except.ok.inj hc))
  | Except.error x, Except.error y =>
    if h : x = y then Decidable.isTrue (h ▸ rfl)
    else Decidable.isFalse (fun hc => h (Except.error.inj hc))
  | Except.ok _, Except.error _ => Decidable.isFalse (fun hc => Except.noConfusion hc)
  | Except.error _, Except.ok _ => Decidable.isFalse (fun hc => Except.noConfusion hc)

/-- Embedding of pipe.CompressAndEncryptOptional: compress when a
compressor is configured, then encrypt when a crypter is configured. -/
def compressAndEncryptOptional (b : Blob) (compressor : Option Comp) (crypter : Bool) : Blob :=
  let b1 := match compressor with
    | some c => Blob.comp c b
    | none => b
  if crypter then Blob.enc b1 else b1

/-- Embedding of pipe.DecryptAndDecompressOptional: decrypt when a crypter
is configured, then decompress when a decompressor is configured; a stream
whose shape does not match the requested transform fails. -/
def decryptAndDecompressOptional (b : Blob) (crypter : Bool) (decompressor : Option Comp) :
    Except StorErr Blob :=
  let step1 : Except StorErr Blob :=
    if crypter then
      match b with
      | Blob.enc b1 => Except.ok b1
      | _ => Except.error StorErr.decodeMismatch
    else Except.ok b
  match step1 with
  | Except.error e => Except.error e
  | Except.ok b1 =>
    match decompressor with
    | none => Except.ok b1
    | some c =>
      match b1 with
      | Blob.comp c1 b2 =>
        if c1 = c then Except.ok b2 else Except.error StorErr.decodeMismatch
      | _ => Except.error StorErr.decodeMismatch

/-- Embedding of VariadicStorage.encodePath (dynstor.go). -/
def VariadicStorage.encodePath (vs : VariadicStorage) (base : Str) : Str :=
  toSlash (base ++ vs.writeExt)

/-- The loop body of VariadicStorage.decodePath (dynstor.go): scan the
extension list, skip the empty extension, and strip the first extension
that is a suffix of the name. -/
def stripKnownExt : List Str → Str → Str
  | [], encoded => encoded
  | ext :: rest, encoded =>
    if ext.isEmpty then stripKnownExt rest encoded
    else if ext <:+ encoded then trimSuffix encoded ext
    else stripKnownExt rest encoded

/-- Embedding of VariadicStorage.decodePath (dynstor.go). -/
def VariadicStorage.decodePath (vs : VariadicStorage) (encoded : Str) : Str :=
  stripKnownExt (supportedExts vs.alg) (toSlash encoded)

/-- The loop of VariadicStorage.findExistingName (dynstor.go): return the
first candidate that exists in the backend.  With the backend modelled as a
map, the backend Exists probe cannot fail, so the only error is the
fs.ErrNotExist returned after an unsuccessful scan. -/
def findFirstExisting (store : Str → Option Blob) (base : Str) : List Str → Except StorErr Str
  | [] => Except.error StorErr.notExist
  | ext :: rest =>
    if (store (base ++ ext)).isSome then Except.ok (base ++ ext)
    else findFirstExisting store base rest

/-- Embedding of VariadicStorage.findExistingName (dynstor.go). -/
def VariadicStorage.findExistingName (vs : VariadicStorage) (store : Str → Option Blob)
    (base : Str) : Except StorErr Str :=
  findFirstExisting store (toSlash base) (supportedExts vs.alg)

/-- The test performed by the first loop of VariadicStorage.Get: does the
path already end with a known, non-empty extension?  (The Go loop returns
from its body on the first such extension; the body does not otherwise use
the extension, so only existence matters.) -/
def HasKnownExt (exts : List Str) (s : Str) : Prop := ∃ e ∈ exts, e ≠ [] ∧ e <:+ s

instance (exts : List Str) (s : Str) : Decidable (HasKnownExt exts s) :=
  inferInstanceAs (Decidable (∃ e ∈ exts, e ≠ [] ∧ e <:+ s))

/-- Embedding of VariadicStorage.Get (dynstor.go): a path that already
carries a known extension is treated as a fully encoded physical name;
otherwise the existing variant is searched in priority order. -/
def VariadicStorage.Get (vs : VariadicStorage) (store : Str → Option Blob) (path : Str) :
    Except StorErr Blob :=
  let path1 := toSlash path
  if HasKnownExt (supportedExts vs.alg) path1 then
    match store path1 with
    | none => Except.error StorErr.notExist
    | some b =>
      let t := transformsFromName vs.alg path1
      decryptAndDecompressOptional b t.crypter t.decompressor
  else
    match vs.findExistingName store path1 with
    | Except.error e => Except.error e
    | Except.ok stored =>
      match store stored with
      | none => Except.error StorErr.notExist
      | some b =>
        let t := transformsFromName vs.alg stored
        decryptAndDecompressOptional b t.crypter t.decompressor

/-- Embedding of VariadicStorage.Put (dynstor.go): encode the logical path
with the configured write extension, transform the stream according to that
name, and store it; the new backend state is returned. -/
def VariadicStorage.Put (vs : VariadicStorage) (store : Str → Option Blob) (path : Str)
    (data : Blob) : Str → Option Blob :=
  let path1 := toSlash path
  let stored := vs.encodePath path1
  let t := transformsFromName vs.alg stored
  fun k => if k = stored then some (compressAndEncryptOptional data t.compressor t.crypter)
    else store k

/-- Embedding of VariadicStorage.Exists (dynstor.go): true exactly when the
variant probe finds some candidate. -/
def VariadicStorage.Exists (vs : VariadicStorage) (store : Str → Option Blob) (path : Str) :
    Bool :=
  match vs.findExistingName store (toSlash path) with
  | Except.ok _ => true
  | Except.error _ => false

/-- A Go error value as observed by VariadicStorage.Delete: all the loop
inspects is errors.Is(err, fs.ErrNotExist); the code field keeps distinct
errors distinguishable. -/
structure GoErr where
  isNotExist : Bool
  code : Nat
deriving DecidableEq

/-- The loop of VariadicStorage.Delete (dynstor.go), with the backend
deletion modelled by its per-candidate result and the performed calls
recorded: each candidate is attempted, not-found failures are skipped, any
other failure replaces the remembered error. -/
def deleteLoop (del : Str → Option GoErr) (path : Str) :
    List Str → Option GoErr → List Str × Option GoErr
  | [], lastErr => ([], lastErr)
  | ext :: rest, lastErr =>
    let candidate := path ++ ext
    let lastErr1 :=
      match del candidate with
      | some e => if e.isNotExist then lastErr else some e
      | none => lastErr
    let r := deleteLoop del path rest lastErr1
    (candidate :: r.1, r.2)

/-- Embedding of VariadicStorage.Delete (dynstor.go): the pair of the
backend deletions issued (in order) and the returned error. -/
def VariadicStorage.Delete (vs : VariadicStorage) (del : Str → Option GoErr) (path : Str) :
    List Str × Option GoErr :=
  deleteLoop del (toSlash path) (supportedExts vs.alg) none

/-- Embedding of VariadicStorage.List (dynstor.go): the backend listing
with every entry rewritten to its logical name; no deduplication. -/
def VariadicStorage.List (vs : VariadicStorage) (files : List Str) : List Str :=
  files.map (fun f => vs.decodePath f)

/-- Embedding of the TransformingStorage struct (modifier.go): one optional
compressor, one optional decompressor, one optional crypter. -/
structure TransformingStorage where
  compressor : Option Comp
  decompressor : Option Comp
  crypter : Bool

/-- Modelled from the spec: the canonical filename-extension tags of the
external compressor capability objects (codec.GzipCompressor ".gz",
codec.ZstdCompressor ".zst"; the streamcrypt package itself is outside this
repository, the tags are fixed by spec section 6). -/
def compFileExtension : Comp → Str
  | Comp.gz => gzE
  | Comp.zst => zstE

/-- Embedding of TransformingStorage.getFileExt (modifier.go): compressor
tag then crypter tag, each skipped when absent. -/
def TransformingStorage.getFileExt (ts : TransformingStorage) : Str :=
  (match ts.compressor with
    | some c => compFileExtension c
    | none => []) ++
  (if ts.crypter then aesE else [])

/-- Embedding of TransformingStorage.encodePath (modifier.go). -/
def TransformingStorage.encodePath (ts : TransformingStorage) (path : Str) : Str :=
  toSlash (path ++ ts.getFileExt)

/-- Embedding of TransformingStorage.Get (modifier.go): fetch the single
encoded physical name and decode; the backend error (NotFound when the
object is absent, per the backend contract) is propagated unchanged. -/
def TransformingStorage.Get (ts : TransformingStorage) (store : Str → Option Blob)
    (path : Str) : Except StorErr Blob :=
  match store (ts.encodePath path) with
  | none => Except.error StorErr.notExist
  | some b => decryptAndDecompressOptional b ts.crypter ts.decompressor

/-- Specification-side definition, following the spec's words for claims C4
and C8: which suffix combinations are derivable from an Algorithms set —
the empty suffix always, each single-transform suffix when its capability
is present, each compression+encryption combination when both named
capabilities are present, and nothing else. -/
def extDerivable (alg : Algorithms) (e : Str) : Bool :=
  if e = [] then true
  else if e = gzE then alg.gzip
  else if e = zstE then alg.zstd
  else if e = aesE then alg.aes
  else if e = gzAesE then alg.gzip && alg.aes
  else if e = zstAesE then alg.zstd && alg.aes
  else false

/-- Specification-side definition: all suffix combinations, in the order
the spec fixes for the priority list (compression+encryption combinations
first, then single-transform suffixes, then the empty suffix). -/
def allExtCombos : List Str := [gzAesE, zstAesE, gzE, zstE, aesE, []]

/-- Specification-side definition for claim C4: the priority list the spec
describes, namely the fixed-order combination list filtered to the
derivable ones. -/
def specSupportedExts (alg : Algorithms) : List Str :=
  allExtCombos.filter (extDerivable alg)

/-- Specification-side definition for claim C2: the last error in a result
sequence that is not a not-found error. -/
def lastNonNotFound (errs : List GoErr) : Option GoErr :=
  (errs.filter (fun e => !e.isNotExist)).getLast?

/-! ## Helper lemmas -/

theorem toSlash_append (a b : Str) : toSlash (a ++ b) = toSlash a ++ toSlash b :=
  List.map_append _ a b

theorem toSlash_idem (s : Str) : toSlash (toSlash s) = toSlash s := by
  induction s with
  | nil => rfl
  | cons c cs ih =>
    simp only [toSlash, List.map_cons, List.map_map] at ih ⊢
    by_cases hc : c = '\\' <;> simp [hc, ih, toSlash, Function.comp]

theorem trimSuffix_append (p s : Str) : trimSuffix (p ++ s) s = p := by
  unfold trimSuffix
  rw [if_pos (List.suffix_append p s)]
  simp [List.take_left]

theorem suffix_append_iff_of_le {e s : Str} (p : Str) (h : e.length ≤ s.length) :
    e <:+ p ++ s ↔ e <:+ s :=
  ⟨fun he => List.suffix_of_suffix_length_le he (List.suffix_append p s) h,
   fun he => he.trans (List.suffix_append p s)⟩

theorem append_suffix_append_iff {a b s : Str} : a ++ s <:+ b ++ s ↔ a <:+ b := by
  constructor
  · rintro ⟨t, ht⟩
    exact ⟨t, List.append_cancel_right (by simpa [List.append_assoc] using ht)⟩
  · rintro ⟨t, ht⟩
    exact ⟨t, by rw [← List.append_assoc, ht]⟩

theorem isSupported_nil (alg : Algorithms) : isSupportedWriteExt alg [] = true := rfl

theorem isSupported_gzE (alg : Algorithms) : isSupportedWriteExt alg gzE = alg.gzip := by
  obtain ⟨g, z, a⟩ := alg; cases g <;> cases z <;> cases a <;> decide

theorem isSupported_zstE (alg : Algorithms) : isSupportedWriteExt alg zstE = alg.zstd := by
  obtain ⟨g, z, a⟩ := alg; cases g <;> cases z <;> cases a <;> decide

theorem isSupported_aesE (alg : Algorithms) : isSupportedWriteExt alg aesE = alg.aes := by
  obtain ⟨g, z, a⟩ := alg; cases g <;> cases z <;> cases a <;> decide

theorem isSupported_gzAesE (alg : Algorithms) :
    isSupportedWriteExt alg gzAesE = (alg.gzip && alg.aes) := by
  obtain ⟨g, z, a⟩ := alg; cases g <;> cases z <;> cases a <;> decide

theorem isSupported_zstAesE (alg : Algorithms) :
    isSupportedWriteExt alg zstAesE = (alg.zstd && alg.aes) := by
  obtain ⟨g, z, a⟩ := alg; cases g <;> cases z <;> cases a <;> decide

theorem valid_writeExt_cases {alg : Algorithms} {w : Str}
    (h : isSupportedWriteExt alg w = true) :
    w = [] ∨ (w = gzE ∧ alg.gzip = true) ∨ (w = zstE ∧ alg.zstd = true) ∨
    (w = gzAesE ∧ alg.gzip = true ∧ alg.aes = true) ∨
    (w = zstAesE ∧ alg.zstd = true ∧ alg.aes = true) ∨
    (w = aesE ∧ alg.aes = true) := by
  unfold isSupportedWriteExt at h
  split_ifs at h with h1 h2 h3 h4 h5 h6
  · exact Or.inl h1
  · exact Or.inr (Or.inl ⟨h2, h⟩)
  · exact Or.inr (Or.inr (Or.inl ⟨h3, h⟩))
  · exact Or.inr (Or.inr (Or.inr (Or.inl ⟨h4, by simpa using h⟩)))
  · exact Or.inr (Or.inr (Or.inr (Or.inr (Or.inl ⟨h5, by simpa using h⟩))))
  · exact Or.inr (Or.inr (Or.inr (Or.inr (Or.inr ⟨h6, h⟩))))

theorem valid_writeExt_toSlash {alg : Algorithms} {w : Str}
    (h : isSupportedWriteExt alg w = true) : toSlash w = w := by
  rcases valid_writeExt_cases h with rfl | ⟨rfl, _⟩ | ⟨rfl, _⟩ | ⟨rfl, _⟩ | ⟨rfl, _⟩ | ⟨rfl, _⟩ <;>
    decide

theorem nil_mem_supportedExts (alg : Algorithms) : ([] : Str) ∈ supportedExts alg := by
  simp [supportedExts]

theorem gzE_mem_supportedExts {alg : Algorithms} (h : alg.gzip = true) :
    gzE ∈ supportedExts alg := by
  simp [supportedExts, h]

theorem zstE_mem_supportedExts {alg : Algorithms} (h : alg.zstd = true) :
    zstE ∈ supportedExts alg := by
  simp [supportedExts, h]

theorem aesE_mem_supportedExts {alg : Algorithms} (h : alg.aes = true) :
    aesE ∈ supportedExts alg := by
  simp [supportedExts, h]

theorem gzAesE_mem_supportedExts {alg : Algorithms} (hg : alg.gzip = true)
    (ha : alg.aes = true) : gzAesE ∈ supportedExts alg := by
  simp [supportedExts, hg, ha]

theorem zstAesE_mem_supportedExts {alg : Algorithms} (hz : alg.zstd = true)
    (ha : alg.aes = true) : zstAesE ∈ supportedExts alg := by
  simp [supportedExts, hz, ha]

theorem valid_writeExt_mem {alg : Algorithms} {w : Str}
    (h : isSupportedWriteExt alg w = true) : w ∈ supportedExts alg := by
  rcases valid_writeExt_cases h with rfl | ⟨rfl, h1⟩ | ⟨rfl, h1⟩ | ⟨rfl, h1, h2⟩ |
    ⟨rfl, h1, h2⟩ | ⟨rfl, h1⟩
  · exact nil_mem_supportedExts alg
  · exact gzE_mem_supportedExts h1
  · exact zstE_mem_supportedExts h1
  · exact gzAesE_mem_supportedExts h1 h2
  · exact zstAesE_mem_supportedExts h1 h2
  · exact aesE_mem_supportedExts h1

theorem gzAesE_mem_inv (alg : Algorithms) :
    gzAesE ∈ supportedExts alg → alg.gzip = true ∧ alg.aes = true := by
  obtain ⟨g, z, a⟩ := alg; cases g <;> cases z <;> cases a <;> decide

theorem zstAesE_mem_inv (alg : Algorithms) :
    zstAesE ∈ supportedExts alg → alg.zstd = true ∧ alg.aes = true := by
  obtain ⟨g, z, a⟩ := alg; cases g <;> cases z <;> cases a <;> decide

/-- Specification-side definition for claim C8, following the spec's words:
a write suffix is producible from an Algorithms set when it is the empty
suffix, a single-transform suffix whose capability is present, or a
compression+encryption suffix with both named capabilities present. -/
def Producible (alg : Algorithms) (w : Str) : Prop :=
  w = [] ∨ (w = gzE ∧ alg.gzip = true) ∨ (w = zstE ∧ alg.zstd = true) ∨
  (w = aesE ∧ alg.aes = true) ∨ (w = gzAesE ∧ alg.gzip = true ∧ alg.aes = true) ∨
  (w = zstAesE ∧ alg.zstd = true ∧ alg.aes = true)

theorem isSupportedWriteExt_iff_producible (alg : Algorithms) (w : Str) :
    isSupportedWriteExt alg w = true ↔ Producible alg w := by
  constructor
  · intro h
    rcases valid_writeExt_cases h with rfl | ⟨rfl, h1⟩ | ⟨rfl, h1⟩ | ⟨rfl, h1, h2⟩ |
      ⟨rfl, h1, h2⟩ | ⟨rfl, h1⟩
    · exact Or.inl rfl
    · exact Or.inr (Or.inl ⟨rfl, h1⟩)
    · exact Or.inr (Or.inr (Or.inl ⟨rfl, h1⟩))
    · exact Or.inr (Or.inr (Or.inr (Or.inr (Or.inl ⟨rfl, h1, h2⟩))))
    · exact Or.inr (Or.inr (Or.inr (Or.inr (Or.inr ⟨rfl, h1, h2⟩))))
    · exact Or.inr (Or.inr (Or.inr (Or.inl ⟨rfl, h1⟩)))
  · rintro (rfl | ⟨rfl, h1⟩ | ⟨rfl, h1⟩ | ⟨rfl, h1⟩ | ⟨rfl, h1, h2⟩ | ⟨rfl, h1, h2⟩)
    · exact isSupported_nil alg
    · rw [isSupported_gzE]; exact h1
    · rw [isSupported_zstE]; exact h1
    · rw [isSupported_aesE]; exact h1
    · rw [isSupported_gzAesE, h1, h2]; rfl
    · rw [isSupported_zstAesE, h1, h2]; rfl

/-- C4: for every Algorithms set, supportedExts() returns exactly the
suffix combinations derivable from that set, in the fixed order
".gz.aes", ".zst.aes" first, then ".gz", ".zst", ".aes", then the empty
suffix last; a combination appears iff every capability it names is
present. -/
theorem c4_supportedExts_spec :
    ∀ alg : Algorithms,
      supportedExts alg = specSupportedExts alg ∧
      ∀ e : Str, e ∈ supportedExts alg ↔ e ∈ allExtCombos ∧ extDerivable alg e = true := by
  intro alg
  have h : supportedExts alg = specSupportedExts alg := by
    obtain ⟨g, z, a⟩ := alg
    cases g <;> cases z <;> cases a <;> decide
  refine ⟨h, fun e => ?_⟩
  rw [h, specSupportedExts, List.mem_filter]

/-- C8: NewVariadicStorage fails (returning no storage instance) exactly
when the requested write suffix is not producible from the supplied
Algorithms set, where producibility is: the empty suffix always, ".gz",
".zst", ".aes" with their single capability, ".gz.aes" and ".zst.aes" with
both capabilities, and nothing else; the check happens at construction. -/
theorem c8_construction_validation :
    ∀ (alg : Algorithms) (w : Str),
      (NewVariadicStorage alg w = none ↔ ¬ Producible alg w) ∧
      (∀ vs : VariadicStorage, NewVariadicStorage alg w = some vs →
        Producible alg w ∧ vs.alg = alg ∧ vs.writeExt = w) := by
  intro alg w
  unfold NewVariadicStorage
  by_cases h : isSupportedWriteExt alg w = true
  · rw [if_pos h]
    refine ⟨⟨fun hc => absurd hc (by simp), fun hc => absurd ((isSupportedWriteExt_iff_producible alg w).1 h) hc⟩, ?_⟩
    intro vs hvs
    have : vs = ⟨alg, w⟩ := by injection hvs with h1; rw [← h1]
    exact ⟨(isSupportedWriteExt_iff_producible alg w).1 h, by rw [this], by rw [this]⟩
  · rw [if_neg h]
    refine ⟨⟨fun _ hc => h ((isSupportedWriteExt_iff_producible alg w).2 hc), fun _ => rfl⟩, ?_⟩
    intro vs hvs
    exact absurd hvs (by simp)

theorem getLast?_cons_or {α : Type} (a : α) (l : List α) :
    (a :: l).getLast? = l.getLast?.or (some a) := by
  rw [show a :: l = [a] ++ l from rfl, List.getLast?_append]
  rfl

theorem deleteLoop_eq (del : Str → Option GoErr) (path : Str) :
    ∀ (exts : List Str) (lastErr : Option GoErr),
      deleteLoop del path exts lastErr =
        (exts.map (fun e => path ++ e),
         (lastNonNotFound (exts.filterMap (fun e => del (path ++ e)))).or lastErr) := by
  intro exts
  induction exts with
  | nil => intro lastErr; simp [deleteLoop, lastNonNotFound]
  | cons x rest ih =>
    intro lastErr
    simp only [deleteLoop, ih, List.map_cons, List.filterMap_cons]
    refine Prod.ext rfl ?_
    simp only
    cases hx : del (path ++ x) with
    | none => rfl
    | some e =>
      cases he : e.isNotExist with
      | true => simp [lastNonNotFound, List.filter_cons, he]
      | false =>
        simp only [lastNonNotFound, List.filter_cons, he]
        rw [if_neg (by simp), if_pos (by simp), getLast?_cons_or, Option.or_assoc]
        rfl

/-- C2: Delete issues a backend deletion for the candidate of every
extension in supportedExts (never stopping early), ignores per-candidate
not-found errors, returns the last non-not-found error, and returns nil
when every failed candidate was merely absent. -/
theorem c2_delete_all_variants (vs : VariadicStorage) (del : Str → Option GoErr) (path : Str) :
    (vs.Delete del path).1 = (supportedExts vs.alg).map (fun e => toSlash path ++ e) ∧
    (vs.Delete del path).2 =
      lastNonNotFound ((supportedExts vs.alg).filterMap (fun e => del (toSlash path ++ e))) ∧
    ((∀ e ∈ supportedExts vs.alg, ∀ er : GoErr,
        del (toSlash path ++ e) = some er → er.isNotExist = true) →
      (vs.Delete del path).2 = none) := by
  have h := deleteLoop_eq del (toSlash path) (supportedExts vs.alg) none
  unfold VariadicStorage.Delete
  rw [h]
  refine ⟨rfl, by simp, ?_⟩
  intro hall
  simp only [Option.or_none]
  unfold lastNonNotFound
  have hnil : List.filter (fun e => !e.isNotExist)
      (List.filterMap (fun e => del (toSlash path ++ e)) (supportedExts vs.alg)) = [] := by
    rw [List.filter_eq_nil_iff]
    intro er her
    rcases List.mem_filterMap.1 her with ⟨e, he, hde⟩
    simp [hall e he er hde]
  rw [hnil]
  rfl

theorem count_map_eq_countP (f : Str → Str) (l : List Str) (a : Str) :
    (l.map f).count a = l.countP (fun x => f x == a) := by
  induction l with
  | nil => rfl
  | cons x xs ih =>
    simp only [List.map_cons, List.count_cons, List.countP_cons, ih]

theorem two_le_countP {p : Str → Bool} {l : List Str} {a b : Str} (hab : a ≠ b)
    (ha : a ∈ l) (hb : b ∈ l) (hpa : p a = true) (hpb : p b = true) :
    2 ≤ l.countP p := by
  induction l with
  | nil => cases ha
  | cons x xs ih =>
    rw [List.countP_cons]
    rcases List.mem_cons.1 ha with rfl | ha2
    · rcases List.mem_cons.1 hb with rfl | hb2
      · exact absurd rfl hab
      · have hpos : 0 < xs.countP p := List.countP_pos_iff.2 ⟨b, hb2, hpb⟩
        rw [if_pos hpa]
        omega
    · rcases List.mem_cons.1 hb with rfl | hb2
      · have hpos : 0 < xs.countP p := List.countP_pos_iff.2 ⟨a, ha2, hpa⟩
        rw [if_pos hpb]
        omega
      · have := ih ha2 hb2
        omega

/-- C9: List returns one entry per backend object, each rewritten to its
logical name by decodePath, with no deduplication: the multiplicity of a
logical name equals the number of physical entries decoding to it, so two
distinct physical variants of the same logical path yield that logical
name twice. -/
theorem c9_list_no_dedup (vs : VariadicStorage) (files : List Str) :
    (vs.List files).length = files.length ∧
    (∀ L : Str, (vs.List files).count L = files.countP (fun n => vs.decodePath n == L)) ∧
    (∀ k1 k2 : Str, k1 ∈ files → k2 ∈ files → k1 ≠ k2 →
      vs.decodePath k1 = vs.decodePath k2 →
      2 ≤ (vs.List files).count (vs.decodePath k1)) := by
  unfold VariadicStorage.List
  refine ⟨List.length_map files _, fun L => count_map_eq_countP _ files L, ?_⟩
  intro k1 k2 h1 h2 hne heq
  rw [count_map_eq_countP]
  exact two_le_countP hne h1 h2 (by simp) (by simp [heq])

theorem find?_congr {α : Type} {p q : α → Bool} (l : List α) (h : ∀ a ∈ l, p a = q a) :
    l.find? p = l.find? q := by
  induction l with
  | nil => rfl
  | cons x xs ih =>
    rw [List.find?_cons, List.find?_cons, h x (List.mem_cons_self x xs)]
    cases q x
    · exact ih (fun a ha => h a (List.mem_cons_of_mem x ha))
    · rfl

theorem findFirstExisting_of_find {store : Str → Option Blob} {base : Str} {exts : List Str}
    {ext0 : Str} (h : exts.find? (fun e => (store (base ++ e)).isSome) = some ext0) :
    findFirstExisting store base exts = Except.ok (base ++ ext0) := by
  induction exts with
  | nil => simp at h
  | cons x rest ih =>
    rw [List.find?_cons] at h
    unfold findFirstExisting
    cases hx : (store (base ++ x)).isSome with
    | true =>
      rw [hx] at h
      simp only [Option.some.injEq] at h
      rw [if_pos rfl, h]
    | false =>
      rw [hx] at h
      rw [if_neg (by simp)]
      exact ih h

theorem findFirstExisting_of_none {store : Str → Option Blob} {base : Str} {exts : List Str}
    (h : ∀ e ∈ exts, store (base ++ e) = none) :
    findFirstExisting store base exts = Except.error StorErr.notExist := by
  induction exts with
  | nil => rfl
  | cons x rest ih =>
    unfold findFirstExisting
    rw [if_neg (by simp [h x (List.mem_cons_self x rest)])]
    exact ih (fun e he => h e (List.mem_cons_of_mem x he))

/-- C1: on a logical path (no supported suffix of its own) with at least
one existing variant, Get — through findExistingName — resolves to the
candidate base+ext whose ext comes earliest in supportedExts among the
existing variants and returns that variant decoded; the outcome depends
only on the backend contents at the candidate keys, hence is deterministic
regardless of write order or previous calls. -/
theorem c1_get_priority_resolution (vs : VariadicStorage) (store : Str → Option Blob)
    (path ext0 : Str) (b : Blob)
    (hp : toSlash path = path)
    (hnk : ¬ HasKnownExt (supportedExts vs.alg) path)
    (hfind : (supportedExts vs.alg).find? (fun e => (store (path ++ e)).isSome) = some ext0)
    (hb : store (path ++ ext0) = some b) :
    vs.findExistingName store path = Except.ok (path ++ ext0) ∧
    vs.Get store path =
      decryptAndDecompressOptional b (transformsFromName vs.alg (path ++ ext0)).crypter
        (transformsFromName vs.alg (path ++ ext0)).decompressor ∧
    ∀ store2 : Str → Option Blob,
      (∀ e ∈ supportedExts vs.alg, store2 (path ++ e) = store (path ++ e)) →
      vs.Get store2 path = vs.Get store path := by
  have hmem : ext0 ∈ supportedExts vs.alg := List.mem_of_find?_eq_some hfind
  have hget : ∀ st : Str → Option Blob,
      (∀ e ∈ supportedExts vs.alg, st (path ++ e) = store (path ++ e)) →
      vs.Get st path =
        decryptAndDecompressOptional b (transformsFromName vs.alg (path ++ ext0)).crypter
          (transformsFromName vs.alg (path ++ ext0)).decompressor := by
    intro st hst
    have hfind2 : (supportedExts vs.alg).find? (fun e => (st (path ++ e)).isSome) = some ext0 := by
      rw [find?_congr (supportedExts vs.alg) (fun e he => by rw [hst e he])]
      exact hfind
    have hfen : vs.findExistingName st path = Except.ok (path ++ ext0) := by
      unfold VariadicStorage.findExistingName
      rw [hp]
      exact findFirstExisting_of_find hfind2
    have hstv : st (path ++ ext0) = some b := by rw [hst ext0 hmem, hb]
    simp only [VariadicStorage.Get, hp]
    rw [if_neg hnk, hfen]
    simp only [hstv]
  refine ⟨?_, hget store (fun _ _ => rfl), ?_⟩
  · unfold VariadicStorage.findExistingName
    rw [hp]
    exact findFirstExisting_of_find hfind
  · intro store2 h2
    rw [hget store2 h2, hget store (fun _ _ => rfl)]

/-- C5: a path that already ends in a supported suffix is treated by Get
as an exact physical name: the result is determined by the backend content
at that very key — decoded with the transforms read off the name, the
backend not-found error when absent — and is independent of every other
key, so no priority probing happens. -/
theorem c5_explicit_extension_bypass (vs : VariadicStorage) (store : Str → Option Blob)
    (path : Str) (hp : toSlash path = path)
    (hk : HasKnownExt (supportedExts vs.alg) path) :
    vs.Get store path =
      (match store path with
        | none => Except.error StorErr.notExist
        | some b =>
          decryptAndDecompressOptional b (transformsFromName vs.alg path).crypter
            (transformsFromName vs.alg path).decompressor) ∧
    ∀ store2 : Str → Option Blob, store2 path = store path →
      vs.Get store2 path = vs.Get store path := by
  have h1 : ∀ st : Str → Option Blob,
      vs.Get st path =
        (match st path with
          | none => Except.error StorErr.notExist
          | some b =>
            decryptAndDecompressOptional b (transformsFromName vs.alg path).crypter
              (transformsFromName vs.alg path).decompressor) := by
    intro st
    simp only [VariadicStorage.Get, hp]
    rw [if_pos hk]
  refine ⟨h1 store, fun store2 h2 => ?_⟩
  rw [h1 store2, h1 store, h2]

/-- C6: with zero existing variants of a logical path, the
variant-resolving wrapper's Get returns the fs.ErrNotExist sentinel error
(not a stream), and the fixed-format wrapper's Get propagates the backend
contract's NotFound error for its single encoded key; both are the
category-checkable notExist error value. -/
theorem c6_get_zero_variants_not_found (vs : VariadicStorage) (store : Str → Option Blob)
    (p : Str) (ts : TransformingStorage) (store2 : Str → Option Blob) (q : Str) :
    ((∀ e ∈ supportedExts vs.alg, store (toSlash p ++ e) = none) →
      vs.Get store p = Except.error StorErr.notExist) ∧
    (store2 (ts.encodePath q) = none →
      ts.Get store2 q = Except.error StorErr.notExist) := by
  constructor
  · intro hz
    simp only [VariadicStorage.Get]
    by_cases hk : HasKnownExt (supportedExts vs.alg) (toSlash p)
    · rw [if_pos hk]
      have h0 : store (toSlash p) = none := by
        have h1 := hz [] (nil_mem_supportedExts vs.alg)
        simpa using h1
      rw [h0]
    · rw [if_neg hk]
      have h1 : vs.findExistingName store (toSlash p) = Except.error StorErr.notExist := by
        unfold VariadicStorage.findExistingName
        rw [toSlash_idem]
        exact findFirstExisting_of_none hz
      rw [h1]
  · intro h2
    unfold TransformingStorage.Get
    rw [h2]

/-- C7: Put writes exactly one backend key — the logical path with the
configured write suffix appended — storing the input transformed per that
name, and leaves every other key (in particular every other variant of the
same logical path) unchanged. -/
theorem c7_put_writes_single_key (vs : VariadicStorage) (store : Str → Option Blob)
    (p : Str) (d : Blob)
    (hv : isSupportedWriteExt vs.alg vs.writeExt = true) (hp : toSlash p = p) :
    vs.Put store p d (p ++ vs.writeExt) =
      some (compressAndEncryptOptional d
        (transformsFromName vs.alg (p ++ vs.writeExt)).compressor
        (transformsFromName vs.alg (p ++ vs.writeExt)).crypter) ∧
    ∀ k : Str, k ≠ p ++ vs.writeExt → vs.Put store p d k = store k := by
  have hkey : vs.encodePath p = p ++ vs.writeExt := by
    unfold VariadicStorage.encodePath
    rw [toSlash_append, hp, valid_writeExt_toSlash hv]
  constructor
  · simp only [VariadicStorage.Put, hp, hkey]
    simp
  · intro k hk
    simp only [VariadicStorage.Put, hp, hkey]
    rw [if_neg hk]

/-- C10: there is a backend state and a suffix-bearing path on which
Exists reports true (its probe appends every supported suffix to the path)
while Get fails (it treats the suffix-bearing path as an exact physical
name and never probes): store only base+".gz.aes" and ask for
base+".gz". -/
theorem c10_exists_true_get_error :
    ∃ (vs : VariadicStorage) (store : Str → Option Blob) (p : Str),
      isSupportedWriteExt vs.alg vs.writeExt = true ∧
      HasKnownExt (supportedExts vs.alg) p ∧
      VariadicStorage.Exists vs store p = true ∧
      VariadicStorage.Get vs store p = Except.error StorErr.notExist := by
  refine ⟨⟨⟨true, false, true⟩, gzAesE⟩,
    fun k => if k = ('b' :: gzAesE) then some (Blob.raw []) else none,
    'b' :: gzE, ?_, ?_, ?_, ?_⟩ <;> decide

theorem stripKnownExt_cons (x : Str) (xs : List Str) (n : Str) :
    stripKnownExt (x :: xs) n =
      if x.isEmpty then stripKnownExt xs n
      else if x <:+ n then trimSuffix n x
      else stripKnownExt xs n := rfl

theorem stripKnownExt_cases (exts : List Str) (n : Str) :
    ((∀ e ∈ exts, e = [] ∨ ¬ e <:+ n) ∧ stripKnownExt exts n = n) ∨
    (∃ l₁ e l₂, exts = l₁ ++ e :: l₂ ∧ e ≠ [] ∧ e <:+ n ∧
      (∀ e2 ∈ l₁, e2 = [] ∨ ¬ e2 <:+ n) ∧ stripKnownExt exts n = trimSuffix n e) := by
  induction exts with
  | nil => exact Or.inl ⟨by simp, rfl⟩
  | cons x xs ih =>
    by_cases hxe : x.isEmpty
    · have hx : x = [] := by
        cases x with
        | nil => rfl
        | cons a as => simp at hxe
      have hstep : stripKnownExt (x :: xs) n = stripKnownExt xs n := by
        rw [stripKnownExt_cons, if_pos hxe]
      rcases ih with ⟨hall, heq⟩ | ⟨l₁, e, l₂, hdec, hne, hsuf, hskip, heq⟩
      · refine Or.inl ⟨?_, by rw [hstep, heq]⟩
        intro e he
        rcases List.mem_cons.1 he with rfl | he2
        · exact Or.inl hx
        · exact hall e he2
      · refine Or.inr ⟨x :: l₁, e, l₂, by rw [hdec, List.cons_append], hne, hsuf, ?_,
          by rw [hstep, heq]⟩
        intro e2 he2
        rcases List.mem_cons.1 he2 with rfl | he3
        · exact Or.inl hx
        · exact hskip e2 he3
    · have hxne : x ≠ [] := by
        intro hc
        rw [hc] at hxe
        exact hxe rfl
      by_cases hs : x <:+ n
      · refine Or.inr ⟨[], x, xs, by simp, hxne, hs, by simp, ?_⟩
        rw [stripKnownExt_cons, if_neg hxe, if_pos hs]
      · have hstep : stripKnownExt (x :: xs) n = stripKnownExt xs n := by
          rw [stripKnownExt_cons, if_neg hxe, if_neg hs]
        rcases ih with ⟨hall, heq⟩ | ⟨l₁, e, l₂, hdec, hne, hsuf, hskip, heq⟩
        · refine Or.inl ⟨?_, by rw [hstep, heq]⟩
          intro e he
          rcases List.mem_cons.1 he with rfl | he2
          · exact Or.inr hs
          · exact hall e he2
        · refine Or.inr ⟨x :: l₁, e, l₂, by rw [hdec, List.cons_append], hne, hsuf, ?_,
            by rw [hstep, heq]⟩
          intro e2 he2
          rcases List.mem_cons.1 he2 with rfl | he3
          · exact Or.inr hs
          · exact hskip e2 he3

theorem supportedExts_pairwise (alg : Algorithms) :
    List.Pairwise (fun e e2 => e2.length ≤ e.length ∨ ¬ e <:+ e2) (supportedExts alg) := by
  obtain ⟨g, z, a⟩ := alg
  cases g <;> cases z <;> cases a <;> decide

theorem length_le_of_pair {e e2 n : Str} (h : e2.length ≤ e.length ∨ ¬ e <:+ e2)
    (he : e <:+ n) (he2 : e2 <:+ n) : e2.length ≤ e.length := by
  rcases h with h | h
  · exact h
  · by_contra hlt
    push_neg at hlt
    exact h (List.suffix_of_suffix_length_le he he2 (by omega))

theorem supportedExts_nested_pairs (alg : Algorithms) :
    ∀ e ∈ supportedExts alg, ∀ w ∈ supportedExts alg, w ≠ ([] : Str) → w <:+ e → w ≠ e →
      (w = aesE ∧ e = gzAesE) ∨ (w = aesE ∧ e = zstAesE) := by
  obtain ⟨g, z, a⟩ := alg
  cases g <;> cases z <;> cases a <;> decide

theorem decodePath_strips_longest (vs : VariadicStorage) (n : Str) (hn : toSlash n = n) :
    (vs.decodePath n = n ∧ ∀ e ∈ supportedExts vs.alg, e ≠ ([] : Str) → ¬ e <:+ n) ∨
    (∃ e ∈ supportedExts vs.alg, e ≠ ([] : Str) ∧ e <:+ n ∧
      vs.decodePath n = trimSuffix n e ∧
      ∀ e2 ∈ supportedExts vs.alg, e2 ≠ ([] : Str) → e2 <:+ n → e2.length ≤ e.length) := by
  unfold VariadicStorage.decodePath
  rw [hn]
  rcases stripKnownExt_cases (supportedExts vs.alg) n with ⟨hall, heq⟩ |
    ⟨l₁, e, l₂, hdec, hne, hsuf, hskip, heq⟩
  · left
    exact ⟨heq, fun e he hene => (hall e he).resolve_left hene⟩
  · right
    refine ⟨e, ?_, hne, hsuf, heq, ?_⟩
    · rw [hdec]
      exact List.mem_append_right l₁ (List.mem_cons_self e l₂)
    · intro e2 he2 hne2 hsuf2
      have hpw := supportedExts_pairwise vs.alg
      rw [hdec] at hpw he2
      rw [List.pairwise_append] at hpw
      rcases List.mem_append.1 he2 with h1 | h2
      · exact absurd hsuf2 ((hskip e2 h1).resolve_left hne2)
      · rcases List.mem_cons.1 h2 with rfl | h3
        · exact le_refl _
        · have hR := (List.pairwise_cons.1 hpw.2.1).1 e2 h3
          exact length_le_of_pair hR hsuf hsuf2

theorem decode_encode_id (vs : VariadicStorage) (p : Str)
    (hv : isSupportedWriteExt vs.alg vs.writeExt = true)
    (hp : toSlash p = p)
    (hlog : ∀ e ∈ supportedExts vs.alg, e ≠ ([] : Str) → ¬ e <:+ p) :
    vs.decodePath (vs.encodePath p) = p := by
  have hwslash := valid_writeExt_toSlash hv
  have henc : vs.encodePath p = p ++ vs.writeExt := by
    unfold VariadicStorage.encodePath
    rw [toSlash_append, hp, hwslash]
  rw [henc]
  unfold VariadicStorage.decodePath
  rw [toSlash_append, hp, hwslash]
  by_cases hwnil : vs.writeExt = []
  · rw [hwnil, List.append_nil]
    rcases stripKnownExt_cases (supportedExts vs.alg) p with ⟨_, heq⟩ |
      ⟨l₁, e, l₂, hdec, hne, hsuf, hskip, heq⟩
    · exact heq
    · refine absurd hsuf (hlog e ?_ hne)
      rw [hdec]
      exact List.mem_append_right l₁ (List.mem_cons_self e l₂)
  · rcases stripKnownExt_cases (supportedExts vs.alg) (p ++ vs.writeExt) with ⟨hall, _⟩ |
      ⟨l₁, e, l₂, hdec, hne, hsuf, hskip, heq⟩
    · have hmem := valid_writeExt_mem hv
      have hno := (hall vs.writeExt hmem).resolve_left hwnil
      exact absurd (List.suffix_append p vs.writeExt) hno
    · rw [heq]
      have hmem_e : e ∈ supportedExts vs.alg := by
        rw [hdec]
        exact List.mem_append_right l₁ (List.mem_cons_self e l₂)
      have hmem_w := valid_writeExt_mem hv
      have hwsuf : vs.writeExt <:+ p ++ vs.writeExt := List.suffix_append p vs.writeExt
      have hlen : vs.writeExt.length ≤ e.length := by
        rcases List.mem_append.1 (show vs.writeExt ∈ l₁ ++ e :: l₂ by rw [← hdec]; exact hmem_w)
          with h1 | h2
        · exact absurd hwsuf ((hskip _ h1).resolve_left hwnil)
        · rcases List.mem_cons.1 h2 with heqw | h3
          · rw [heqw]
          · have hpw := supportedExts_pairwise vs.alg
            rw [hdec, List.pairwise_append] at hpw
            have hR := (List.pairwise_cons.1 hpw.2.1).1 _ h3
            exact length_le_of_pair hR hsuf hwsuf
      have hwe : vs.writeExt <:+ e := List.suffix_of_suffix_length_le hwsuf hsuf hlen
      by_cases heqw : vs.writeExt = e
      · rw [← heqw, trimSuffix_append]
      · exfalso
        rcases supportedExts_nested_pairs vs.alg e hmem_e vs.writeExt hmem_w hwnil hwe heqw with
          ⟨hwa, hega⟩ | ⟨hwa, heza⟩
        · rw [hega, hwa] at hsuf
          have hga := gzAesE_mem_inv vs.alg (hega ▸ hmem_e)
          have hgzmem := gzE_mem_supportedExts hga.1
          have hgzp : gzE <:+ p :=
            append_suffix_append_iff.1 (show gzE ++ aesE <:+ p ++ aesE from hsuf)
          exact hlog gzE hgzmem (by decide) hgzp
        · rw [heza, hwa] at hsuf
          have hza := zstAesE_mem_inv vs.alg (heza ▸ hmem_e)
          have hzsmem := zstE_mem_supportedExts hza.1
          have hzsp : zstE <:+ p :=
            append_suffix_append_iff.1 (show zstE ++ aesE <:+ p ++ aesE from hsuf)
          exact hlog zstE hzsmem (by decide) hzsp

/-- C3: encode-then-decode of a logical path (one carrying no supported
suffix) is the identity under the same Algorithms set; and decodePath of
any stored name strips at most one suffix combination, choosing one of
maximal length among the supported suffixes matching the name (so
".gz.aes" is stripped in preference to ".aes"). -/
theorem c3_encode_decode_roundtrip (vs : VariadicStorage) (p n : Str)
    (hv : isSupportedWriteExt vs.alg vs.writeExt = true)
    (hp : toSlash p = p)
    (hlog : ∀ e ∈ supportedExts vs.alg, e ≠ ([] : Str) → ¬ e <:+ p)
    (hn : toSlash n = n) :
    vs.decodePath (vs.encodePath p) = p ∧
    ((vs.decodePath n = n ∧ ∀ e ∈ supportedExts vs.alg, e ≠ ([] : Str) → ¬ e <:+ n) ∨
      (∃ e ∈ supportedExts vs.alg, e ≠ ([] : Str) ∧ e <:+ n ∧
        vs.decodePath n = trimSuffix n e ∧
        ∀ e2 ∈ supportedExts vs.alg, e2 ≠ ([] : Str) → e2 <:+ n → e2.length ≤ e.length)) :=
  ⟨decode_encode_id vs p hv hp hlog, decodePath_strips_longest vs n hn⟩

instance (alg : Algorithms) (w : Str) : Decidable (Producible alg w) :=
  inferInstanceAs (Decidable
    (w = [] ∨ (w = gzE ∧ alg.gzip = true) ∨ (w = zstE ∧ alg.zstd = true) ∨
      (w = aesE ∧ alg.aes = true) ∨ (w = gzAesE ∧ alg.gzip = true ∧ alg.aes = true) ∨
      (w = zstAesE ∧ alg.zstd = true ∧ alg.aes = true)))

/-- The gzip+AES storage used by concrete witness states. -/
def wVs : VariadicStorage := ⟨⟨true, false, true⟩, gzAesE⟩

/-- An empty backend used by concrete witness states. -/
def emptyStore : Str → Option Blob := fun _ => none

/-- Backend state for the C1 witness: the ".gz" and plain variants of
logical path "a" both exist. -/
def c1store : Str → Option Blob := fun k =>
  if k = 'a' :: gzE then some (Blob.comp Comp.gz (Blob.raw [1]))
  else if k = ['a'] then some (Blob.raw [2]) else none

theorem c1_get_priority_resolution_witness :
    (toSlash ['a'] = ['a'] ∧ ¬ HasKnownExt (supportedExts wVs.alg) ['a'] ∧
      (supportedExts wVs.alg).find? (fun e => (c1store (['a'] ++ e)).isSome) = some gzE ∧
      c1store (['a'] ++ gzE) = some (Blob.comp Comp.gz (Blob.raw [1]))) ∧
    (wVs.findExistingName c1store ['a'] = Except.ok (['a'] ++ gzE) ∧
      wVs.Get c1store ['a'] =
        decryptAndDecompressOptional (Blob.comp Comp.gz (Blob.raw [1]))
          (transformsFromName wVs.alg (['a'] ++ gzE)).crypter
          (transformsFromName wVs.alg (['a'] ++ gzE)).decompressor ∧
      ∀ store2 : Str → Option Blob,
        (∀ e ∈ supportedExts wVs.alg, store2 (['a'] ++ e) = c1store (['a'] ++ e)) →
        wVs.Get store2 ['a'] = wVs.Get c1store ['a']) :=
  ⟨⟨by decide, by decide, by decide, by decide⟩,
   c1_get_priority_resolution wVs c1store ['a'] gzE (Blob.comp Comp.gz (Blob.raw [1]))
     (by decide) (by decide) (by decide) (by decide)⟩

/-- The gzip-only storage used by the C2 witness. -/
def c2vs : VariadicStorage := ⟨⟨true, false, false⟩, gzE⟩

/-- Backend deletion results for the C2 witness: every candidate fails
with a not-found error. -/
def c2del : Str → Option GoErr := fun _ => some ⟨true, 3⟩

theorem c2_delete_all_variants_witness :
    (∀ e ∈ supportedExts c2vs.alg, ∀ er : GoErr,
      c2del (toSlash ['p'] ++ e) = some er → er.isNotExist = true) ∧
    (c2vs.Delete c2del ['p']).2 = none :=
  ⟨fun e he er her => by
      simp [c2del] at her
      rw [← her],
   (c2_delete_all_variants c2vs c2del ['p']).2.2
     (fun e he er her => by
       simp [c2del] at her
       rw [← her])⟩

theorem c3_encode_decode_roundtrip_witness :
    (isSupportedWriteExt wVs.alg wVs.writeExt = true ∧ toSlash ['a'] = ['a'] ∧
      (∀ e ∈ supportedExts wVs.alg, e ≠ ([] : Str) → ¬ e <:+ ['a']) ∧
      toSlash ('x' :: gzAesE) = 'x' :: gzAesE) ∧
    (wVs.decodePath (wVs.encodePath ['a']) = ['a'] ∧
      ((wVs.decodePath ('x' :: gzAesE) = 'x' :: gzAesE ∧
        ∀ e ∈ supportedExts wVs.alg, e ≠ ([] : Str) → ¬ e <:+ ('x' :: gzAesE)) ∨
        (∃ e ∈ supportedExts wVs.alg, e ≠ ([] : Str) ∧ e <:+ ('x' :: gzAesE) ∧
          wVs.decodePath ('x' :: gzAesE) = trimSuffix ('x' :: gzAesE) e ∧
          ∀ e2 ∈ supportedExts wVs.alg, e2 ≠ ([] : Str) → e2 <:+ ('x' :: gzAesE) →
            e2.length ≤ e.length))) :=
  ⟨⟨by decide, by decide, by decide, by decide⟩,
   c3_encode_decode_roundtrip wVs ['a'] ('x' :: gzAesE) (by decide) (by decide) (by decide)
     (by decide)⟩

/-- Backend state for the C5 witness: both the ".gz.aes" and the ".gz"
variants of logical path "f" exist. -/
def c5store : Str → Option Blob := fun k =>
  if k = 'f' :: gzAesE then some (Blob.enc (Blob.comp Comp.gz (Blob.raw [7])))
  else if k = 'f' :: gzE then some (Blob.comp Comp.gz (Blob.raw [9])) else none

theorem c5_explicit_extension_bypass_witness :
    (toSlash ('f' :: gzE) = 'f' :: gzE ∧ HasKnownExt (supportedExts wVs.alg) ('f' :: gzE)) ∧
    (wVs.Get c5store ('f' :: gzE) =
      (match c5store ('f' :: gzE) with
        | none => Except.error StorErr.notExist
        | some b =>
          decryptAndDecompressOptional b (transformsFromName wVs.alg ('f' :: gzE)).crypter
            (transformsFromName wVs.alg ('f' :: gzE)).decompressor) ∧
      ∀ store2 : Str → Option Blob, store2 ('f' :: gzE) = c5store ('f' :: gzE) →
        wVs.Get store2 ('f' :: gzE) = wVs.Get c5store ('f' :: gzE)) :=
  ⟨⟨by decide, by decide⟩,
   c5_explicit_extension_bypass wVs c5store ('f' :: gzE) (by decide) (by decide)⟩

/-- The fixed-format storage used by the C6 witness. -/
def c6ts : TransformingStorage := ⟨some Comp.gz, some Comp.gz, true⟩

theorem c6_get_zero_variants_not_found_witness :
    ((∀ e ∈ supportedExts wVs.alg, emptyStore (toSlash ['q'] ++ e) = none) ∧
      emptyStore (c6ts.encodePath ['q']) = none) ∧
    (wVs.Get emptyStore ['q'] = Except.error StorErr.notExist ∧
      c6ts.Get emptyStore ['q'] = Except.error StorErr.notExist) :=
  ⟨⟨by decide, by decide⟩,
   ⟨(c6_get_zero_variants_not_found wVs emptyStore ['q'] c6ts emptyStore ['q']).1 (by decide),
    (c6_get_zero_variants_not_found wVs emptyStore ['q'] c6ts emptyStore ['q']).2 (by decide)⟩⟩

theorem c7_put_writes_single_key_witness :
    (isSupportedWriteExt wVs.alg wVs.writeExt = true ∧ toSlash ['w'] = ['w']) ∧
    (wVs.Put emptyStore ['w'] (Blob.raw [1]) (['w'] ++ wVs.writeExt) =
      some (compressAndEncryptOptional (Blob.raw [1])
        (transformsFromName wVs.alg (['w'] ++ wVs.writeExt)).compressor
        (transformsFromName wVs.alg (['w'] ++ wVs.writeExt)).crypter) ∧
      ∀ k : Str, k ≠ ['w'] ++ wVs.writeExt →
        wVs.Put emptyStore ['w'] (Blob.raw [1]) k = emptyStore k) :=
  ⟨⟨by decide, by decide⟩,
   c7_put_writes_single_key wVs emptyStore ['w'] (Blob.raw [1]) (by decide) (by decide)⟩

theorem c8_construction_validation_witness :
    ¬ Producible ⟨true, false, false⟩ gzAesE ∧
    NewVariadicStorage ⟨true, false, false⟩ gzAesE = none :=
  ⟨by decide,
   ((c8_construction_validation ⟨true, false, false⟩ gzAesE).1).2 (by decide)⟩

/-- Backend listing for the C9 witness: two physical variants of the same
logical path "p". -/
def c9files : List Str := ['p' :: gzE, 'p' :: gzAesE]

theorem c9_list_no_dedup_witness :
    (('p' :: gzE) ∈ c9files ∧ ('p' :: gzAesE) ∈ c9files ∧
      ('p' :: gzE) ≠ ('p' :: gzAesE) ∧
      wVs.decodePath ('p' :: gzE) = wVs.decodePath ('p' :: gzAesE)) ∧
    2 ≤ (wVs.List c9files).count (wVs.decodePath ('p' :: gzE)) :=
  ⟨⟨by decide, by decide, by decide, by decide⟩,
   (c9_list_no_dedup wVs c9files).2.2 ('p' :: gzE) ('p' :: gzAesE) (by decide) (by decide)
     (by decide) (by decide)⟩
